import Mathlib

/-!
Shallow embedding of the refresh-scheduling core of `use-current-date`
(`src/index.ts`).  Instants and millisecond offsets are modelled as `Int`
(JavaScript numbers are exact on these integral ranges).  The JavaScript
remainder operator `%` on numbers is the truncated remainder, embedded as
`Int.tmod`.  Fallible code paths (`throw`) are embedded as `Except String`,
the error being the thrown message.
-/

namespace UseCurrentDate

/-- Source constant `TWENTY_FOUR_HOURS = 24 * 60 * 60 * 1000`. -/
def TWENTY_FOUR_HOURS : Int := 24 * 60 * 60 * 1000

/-- A single `refreshAt` entry: a JavaScript number or string. -/
inductive RefreshValue where
  | num (n : Int)
  | str (s : String)
deriving DecidableEq

/-- The `refreshAt` option: a single value or an array of values. -/
inductive RefreshAtArg where
  | single (v : RefreshValue)
  | array (vs : List RefreshValue)
deriving DecidableEq

/-- Embedding of `[refreshAt].flat()` from `getRefreshValues`: an array argument is kept
as is, a single value becomes a one-element list. -/
def flatten : RefreshAtArg → List RefreshValue
  | .single v => [v]
  | .array vs => vs

/-- Numeric value of a decimal digit character (`Number` on one digit). -/
def digitVal (c : Char) : Nat := c.toNat - 48

/-- Value of `Number` on a non-empty string of decimal digits. -/
def digitsToNat (cs : List Char) : Nat := cs.foldl (fun a c => a * 10 + digitVal c) 0

/-- Embedding of `String.prototype.padEnd(3, '0')` on a digit string. -/
def padEnd3 (cs : List Char) : List Char := cs ++ List.replicate (3 - cs.length) '0'

/-- The fractional-seconds handling of `getRefreshValues`: the captured digit
group is first converted with `Number` (so leading zeros are lost), and when
the resulting value is below 100 the decimal string of that value is
right-padded with `'0'` to three characters and re-read
(`Number(timeSegments[3].toString().padEnd(3, '0'))`). -/
def fracMs (fd : List Char) : Nat :=
  let n := digitsToNat fd
  if n < 100 then digitsToNat (padEnd3 (Nat.toDigits 10 n)) else n

/-- Is `c` one of the characters `'0'` through `'5'` (the first digit of the
`[0-5]\d` groups of `TIME_REGEX`). -/
def isZeroToFive (c : Char) : Bool := decide ('0' ≤ c) && decide (c ≤ '5')

/-- Match of the fractional tail `\.(\d{1,3})$` of `TIME_REGEX`, returning the
captured digit group. -/
def matchFrac : List Char → Option (List Char)
  | '.' :: ds =>
    if 1 ≤ ds.length && ds.length ≤ 3 && ds.all Char.isDigit then some ds else none
  | _ => none

/-- Match of the seconds tail `:([0-5]\d)(\.(\d{1,3}))?$` of `TIME_REGEX`:
seconds value together with the optional fractional capture. -/
def matchSec : List Char → Option (Nat × Option (List Char))
  | ':' :: s1 :: s2 :: rest =>
    if isZeroToFive s1 && s2.isDigit then
      match rest with
      | [] => some (digitVal s1 * 10 + digitVal s2, none)
      | _ => (matchFrac rest).map fun f => (digitVal s1 * 10 + digitVal s2, some f)
    else none
  | _ => none

/-- Match of the minutes tail `:([0-5]\d)(:...)?$` of `TIME_REGEX`. -/
def matchMin : List Char → Option (Nat × Option (Nat × Option (List Char)))
  | ':' :: m1 :: m2 :: rest =>
    if isZeroToFive m1 && m2.isDigit then
      match rest with
      | [] => some (digitVal m1 * 10 + digitVal m2, none)
      | _ => (matchSec rest).map fun r => (digitVal m1 * 10 + digitVal m2, some r)
    else none
  | _ => none

/-- Match of what may follow the hour group: either the end of the string or
the minutes tail. -/
def matchAfterHour : List Char → Option (Option (Nat × Option (Nat × Option (List Char))))
  | [] => some none
  | rest => (matchMin rest).map some

/-- Full match of `TIME_REGEX = ^([01]?\d|2[0-3])(...)?$` against a character
list, returning the captured groups `(hour, (minutes, (seconds, fraction)))`.
The hour alternation is tried as the regex engine does: the branch
`[01]?\d` first (greedily: two digits, then one on backtracking), then the
branch `2[0-3]`. -/
def matchTime : List Char → Option (Nat × Option (Nat × Option (Nat × Option (List Char))))
  | [] => none
  | c0 :: rest0 =>
    if !c0.isDigit then none
    else if c0 = '0' || c0 = '1' then
      match rest0 with
      | c1 :: rest1 =>
        if c1.isDigit then
          match matchAfterHour rest1 with
          | some r => some (digitVal c0 * 10 + digitVal c1, r)
          | none => (matchAfterHour rest0).map fun r => (digitVal c0, r)
        else (matchAfterHour rest0).map fun r => (digitVal c0, r)
      | [] => some (digitVal c0, none)
    else
      match matchAfterHour rest0 with
      | some r => some (digitVal c0, r)
      | none =>
        if c0 = '2' then
          match rest0 with
          | c1 :: rest1 =>
            if decide ('0' ≤ c1) && decide (c1 ≤ '3') then
              (matchAfterHour rest1).map fun r => (20 + digitVal c1, r)
            else none
          | [] => none
        else none

/-- Value of `Date.UTC(1970, 0, 1, ...timeSegments)` applied to the captured groups:
hours, optional minutes, optional seconds, optional fractional milliseconds
(the latter through `fracMs`).  On the matched ranges this is the linear
millisecond count. -/
def segmentsValue : Nat × Option (Nat × Option (Nat × Option (List Char))) → Nat
  | (h, none) => h * 3600000
  | (h, some (m, none)) => h * 3600000 + m * 60000
  | (h, some (m, some (s, none))) => h * 3600000 + m * 60000 + s * 1000
  | (h, some (m, some (s, some f))) => h * 3600000 + m * 60000 + s * 1000 + fracMs f

/-- The message of the `InvalidFormat` error thrown by `getRefreshValues`,
echoing the raw value: the source template is
`Invalid refreshAt value format.  Expected \x60h[:mm[:ss[.ms]]]\x60.  Received: '${v}'`. -/
def invalidFormatMsg (v : String) : String :=
  "Invalid refreshAt value format.  Expected \x60h[:mm[:ss[.ms]]]\x60.  Received: \x27" ++
    v ++ "\x27"

/-- Embedding of `String.prototype.trim()`: drop whitespace from both ends (embedded on
the character list; the claims only involve ASCII whitespace). -/
def trimChars (cs : List Char) : List Char :=
  ((cs.dropWhile Char.isWhitespace).reverse.dropWhile Char.isWhitespace).reverse

/-- The string case of `getRefreshValues`: trim, run `TIME_REGEX`, throw
`InvalidFormat` when it does not match, otherwise evaluate the segments. -/
def parseString (v : String) : Except String Int :=
  match matchTime (trimChars v.data) with
  | none => .error (invalidFormatMsg v)
  | some segs => .ok (Int.ofNat (segmentsValue segs))

/-- One element of the `.map` in `getRefreshValues`: numbers are reduced with
the JavaScript remainder `v % TWENTY_FOUR_HOURS` (truncated remainder),
strings are parsed against `TIME_REGEX`. -/
def parseOne : RefreshValue → Except String Int
  | .num n => .ok (n.tmod TWENTY_FOUR_HOURS)
  | .str s => parseString s

/-- The `.map` of `getRefreshValues`: left to right, failing with the first
element's error (a thrown exception aborts the whole map). -/
def mapParse : List RefreshValue → Except String (List Int)
  | [] => .ok []
  | v :: rest =>
    match parseOne v with
    | .error e => .error e
    | .ok x =>
      match mapParse rest with
      | .error e => .error e
      | .ok xs => .ok (x :: xs)

/-- The parsed offset of a value that parses successfully (defaulting to 0;
used only to state lemmas about `mapParse` on lists whose elements all
parse). -/
def parsedVal (v : RefreshValue) : Int := (parseOne v).toOption.getD 0

/-- Embedding of `getRefreshValues`: flatten, parse each entry, then
`.sort((a, b) => a - b)` (ascending numeric sort). -/
def getRefreshValues (refreshAt : RefreshAtArg) : Except String (List Int) :=
  (mapParse (flatten refreshAt)).map (List.insertionSort (· ≤ ·))

/-- The `nextRefresh` computation of `useCurrentDate`:
`currentMidnightTime + (refreshes.find(v => currentMidnightTime + v >= now) ?? TWENTY_FOUR_HOURS + refreshes[0])`
on the ascending-sorted offsets. -/
def nextRefresh (refreshes : List Int) (midnight now : Int) : Int :=
  midnight +
    ((refreshes.find? fun v => decide (midnight + v ≥ now)).getD
      (TWENTY_FOUR_HOURS + refreshes.headD 0))

/-- The `prevRefresh` computation of `useCurrentDate`: the offsets are
reversed in place (`refreshes.reverse()`), then
`currentMidnightTime + (refreshes.find(v => currentMidnightTime + v < now) ?? TWENTY_FOUR_HOURS + refreshes[0])`;
after the reversal `refreshes[0]` is the largest offset. -/
def prevRefresh (refreshes : List Int) (midnight now : Int) : Int :=
  midnight +
    ((refreshes.reverse.find? fun v => decide (midnight + v < now)).getD
      (TWENTY_FOUR_HOURS + refreshes.reverse.headD 0))

/-- The schedule computation of the `useEffect` body of `useCurrentDate`, up
to the arming of the two timers: given the `refreshAt` argument, the midnight
instant of the current day and `now`, it either fails (in which case nothing
is armed) or produces the pair `(nextRefresh, prevRefresh)` from which the
one-shot timer delay and the interval phase are taken. -/
def computeSchedule (refreshAt : Option RefreshAtArg) (midnight now : Int) :
    Except String (Int × Int) :=
  match refreshAt with
  | none => .ok (midnight + TWENTY_FOUR_HOURS, midnight)
  | some arg => do
    let refreshes ← getRefreshValues arg
    if refreshes.length = 0 then
      .error "refreshAt must have at least one value"
    else
      return (nextRefresh refreshes midnight now, prevRefresh refreshes midnight now)

/-- The first-fire delay of `setIntervalRelativeTo`:
`ms - ((Date.now() - fromTime) % ms)` with the JavaScript truncated
remainder. -/
def firstFireDelay (now fromTime ms : Int) : Int :=
  ms - (now - fromTime).tmod ms

/-- The instant of the `n`-th fire of `setIntervalRelativeTo` when armed at
`now`: the `setTimeout` fires after `firstFireDelay`, then `setInterval`
fires every `ms` thereafter. -/
def fireInstant (now fromTime ms : Int) (n : Nat) : Int :=
  now + firstFireDelay now fromTime ms + (n : Int) * ms

/-- Embedding of `Array.isArray(refreshAt) && refreshAt.length > 1` from the
`returnCurrentTime` default. -/
def isMultiValueArray : Option RefreshAtArg → Bool
  | some (.array vs) => decide (vs.length > 1)
  | _ => false

/-- The default applied by `returnCurrentTime ??= int != null || Array.isArray(refreshAt) && refreshAt.length > 1`. -/
def defaultReturnCurrentTime (int : Option Int) (refreshAt : Option RefreshAtArg) : Bool :=
  int.isSome || isMultiValueArray refreshAt

/-- The returned instant of `useCurrentDate`:
`returnCurrentTime ? new Date() : getCurrentMidnight(utc)`, with the default
above when the option is omitted.  `getCurrentMidnight` is environment
dependent (wall clock and timezone) and is modelled by the `midnight`
parameter, the midnight instant of the current day per the `utc` flag. -/
def returnedInstant (returnCurrentTime : Option Bool) (int : Option Int)
    (refreshAt : Option RefreshAtArg) (now midnight : Int) : Int :=
  if returnCurrentTime.getD (defaultReturnCurrentTime int refreshAt) then now else midnight

/-! Helper lemmas shared by the claim theorems. -/

theorem find?_sorted_le {l : List Int} {p : Int → Bool} (hs : l.Sorted (· ≤ ·))
    {a : Int} (ha : l.find? p = some a) : ∀ q ∈ l, p q = true → a ≤ q := by
  induction l with
  | nil => simp at ha
  | cons x xs ih =>
    rw [List.sorted_cons] at hs
    by_cases hx : p x = true
    · rw [List.find?_cons_of_pos _ hx] at ha
      obtain rfl : x = a := by simpa using ha
      intro q hq _
      rcases List.mem_cons.mp hq with rfl | hq
      · exact le_refl _
      · exact hs.1 q hq
    · rw [List.find?_cons_of_neg _ hx] at ha
      intro q hq hpq
      rcases List.mem_cons.mp hq with rfl | hq
      · exact absurd hpq hx
      · exact ih hs.2 ha q hq hpq

theorem reverse_headD_eq_getLastD (l : List Int) :
    l.reverse.headD 0 = l.getLastD 0 := by
  simp [List.headD_eq_head?_getD, List.head?_reverse, List.getLastD_eq_getLast?]

/-- C1: the claim states that when `now` is earlier than every anchor instant
of the current day, the resolver's previous-anchor result wraps backward to
`midnightInstant + largestOffset - 24h` (yesterday's latest anchor).  The
code instead computes `midnightInstant + 24h + largestOffset` — after the in
place `reverse()`, the fallback `TWENTY_FOUR_HOURS + refreshes[0]` is added
to the midnight instant, producing tomorrow's latest anchor, an instant in
the future.  This theorem records the code's actual behaviour and that it
differs from the claimed value. -/
theorem claim1_prev_wraps_forward (l : List Int) (midnight now : Int) (hne : l ≠ [])
    (hs : l.Sorted (· ≤ ·)) (h : ∀ o ∈ l, now ≤ midnight + o) :
    prevRefresh l midnight now = midnight + (TWENTY_FOUR_HOURS + l.getLastD 0) ∧
    prevRefresh l midnight now ≠ midnight + l.getLastD 0 - TWENTY_FOUR_HOURS := by
  have hnone : l.reverse.find? (fun v => decide (midnight + v < now)) = none := by
    rw [List.find?_eq_none]
    intro x hx
    have hx' : now ≤ midnight + x := h x (List.mem_reverse.mp hx)
    simp only [decide_eq_true_eq]
    omega
  have hval : prevRefresh l midnight now = midnight + (TWENTY_FOUR_HOURS + l.getLastD 0) := by
    rw [prevRefresh, hnone, reverse_headD_eq_getLastD]
    rfl
  refine ⟨hval, ?_⟩
  rw [hval]
  have h24 : TWENTY_FOUR_HOURS = 86400000 := by norm_num [TWENTY_FOUR_HOURS]
  omega

/-- Witness for C1's theorem: a single anchor five hours past midnight, with
`now` one hour past midnight; the code yields tomorrow's anchor instant. -/
theorem claim1_witness :
    prevRefresh [18000000] 0 3600000 = 0 + (TWENTY_FOUR_HOURS + List.getLastD [18000000] 0) ∧
    prevRefresh [18000000] 0 3600000 ≠ 0 + List.getLastD [18000000] 0 - TWENTY_FOUR_HOURS :=
  claim1_prev_wraps_forward [18000000] 0 3600000 (by decide) (by decide) (by decide)

/-- C3 counterexample: for the negative numeric anchor `-1`, the code's
JavaScript remainder returns `-1`, not the claimed always-non-negative
`((-1 mod 86400000) + 86400000) mod 86400000 = 86399999`. -/
theorem claim3_counterexample :
    parseOne (.num (-1)) = .ok (-1) ∧
    ((((-1 : Int) % 86400000) + 86400000) % 86400000 = 86399999) ∧
    (-1 : Int) ≠ 86399999 :=
  ⟨rfl, by decide, by decide⟩

/-- C3 amended: for every non-negative numeric anchor `n`, the parsed value
equals `((n mod 86400000) + 86400000) mod 86400000` (non-negative and below
24 hours); for negative `n` the code instead returns the truncated remainder,
which is negative whenever `n` is not a multiple of 24 hours. -/
theorem claim3_nonneg_mod (n : Int) (h : 0 ≤ n) :
    parseOne (.num n) = .ok (((n % 86400000) + 86400000) % 86400000) := by
  show Except.ok (n.tmod TWENTY_FOUR_HOURS) = _
  have h24 : TWENTY_FOUR_HOURS = 86400000 := by norm_num [TWENTY_FOUR_HOURS]
  rw [h24, Int.tmod_eq_emod h (by omega)]
  congr 1
  omega

/-- Witness for C3's amended theorem: a numeric anchor above 24 hours. -/
theorem claim3_witness :
    parseOne (.num 90000000) = .ok ((((90000000 : Int) % 86400000) + 86400000) % 86400000) :=
  claim3_nonneg_mod 90000000 (by decide)

/-- C4: the claim states that the 1-3 fractional digits are right-padded with
zeros to three digits, so `.05` is 50 milliseconds.  The code converts the
captured digits with `Number` before padding, losing leading zeros: for
`"0:00:00.05"` it computes `Number("05") = 5`, pads `"5"` to `"500"` and
returns 500 milliseconds instead of the claimed
`0·3600000 + 0·60000 + 0·1000 + 50 = 50`. -/
theorem claim4_leading_zero_fraction :
    parseOne (.str "0:00:00.05") = .ok 500 ∧
    (500 : Int) ≠ 0 * 3600000 + 0 * 60000 + 0 * 1000 + 50 :=
  ⟨by rfl, by decide⟩

/-- C8: an empty anchor array makes the configuration fail with exactly the
message `refreshAt must have at least one value`; `computeSchedule` returns
an error, so no `(next, prev)` pair is produced and no timer is armed. -/
theorem claim8_empty_array (midnight now : Int) :
    computeSchedule (some (.array [])) midnight now =
      .error "refreshAt must have at least one value" := rfl

theorem prev_selected (l : List Int) (midnight now : Int)
    (hpast : ∃ o ∈ l, midnight + o < now) :
    ∃ v ∈ l, midnight + v < now ∧ prevRefresh l midnight now = midnight + v := by
  obtain ⟨o, ho, hlt⟩ := hpast
  have hsome : (l.reverse.find? fun v => decide (midnight + v < now)).isSome := by
    rw [List.find?_isSome]
    exact ⟨o, List.mem_reverse.mpr ho, by simp only [decide_eq_true_eq]; exact hlt⟩
  obtain ⟨v, hv⟩ := Option.isSome_iff_exists.mp hsome
  have hvp : midnight + v < now := by
    have := List.find?_some hv
    simpa using this
  have hvm : v ∈ l := List.mem_reverse.mp (List.mem_of_find?_eq_some hv)
  refine ⟨v, hvm, hvp, ?_⟩
  simp only [prevRefresh]
  rw [hv]
  rfl

/-- C2 counterexample: a single anchor five hours past midnight with `now`
exactly at that anchor instant.  The code resolves `next = now` (so the
claimed strict `now < nextAnchorInstant` fails) and resolves `prev` to
tomorrow's anchor instant, in the future (so `prevAnchorInstant ≤ now` fails
as well). -/
theorem claim2_counterexample :
    nextRefresh [18000000] 0 18000000 = 18000000 ∧
    prevRefresh [18000000] 0 18000000 = 104400000 ∧
    ¬(prevRefresh [18000000] 0 18000000 ≤ 18000000 ∧
      (18000000 : Int) < nextRefresh [18000000] 0 18000000) := by
  refine ⟨by rfl, by rfl, ?_⟩
  intro h
  have h1 : (104400000 : Int) ≤ 18000000 := by
    have := h.1
    rwa [show prevRefresh [18000000] 0 18000000 = 104400000 from rfl] at this
  omega

/-- C2 amended: for a non-empty ascending anchor list with offsets in
`[0, 24h)`, a midnight instant with `midnight ≤ now < midnight + 24h`, and
at least one anchor instant strictly before `now`, the resolved pair
satisfies `prev ≤ now ≤ next` and `next - prev ≤ 24h`.  (The original claim
fails in two ways: at an exact tie `next = now`, so only the non-strict
inequality holds, and when no anchor instant is before `now` the code places
`prev` at tomorrow's latest anchor, in the future.) -/
theorem claim2_amended (l : List Int) (midnight now : Int) (hne : l ≠ [])
    (hs : l.Sorted (· ≤ ·)) (hrange : ∀ o ∈ l, 0 ≤ o ∧ o < TWENTY_FOUR_HOURS)
    (hmid : midnight ≤ now) (hday : now < midnight + TWENTY_FOUR_HOURS)
    (hpast : ∃ o ∈ l, midnight + o < now) :
    prevRefresh l midnight now ≤ now ∧
    now ≤ nextRefresh l midnight now ∧
    nextRefresh l midnight now - prevRefresh l midnight now ≤ TWENTY_FOUR_HOURS := by
  have h24 : TWENTY_FOUR_HOURS = 86400000 := by norm_num [TWENTY_FOUR_HOURS]
  obtain ⟨v, hvm, hvlt, hprev⟩ := prev_selected l midnight now hpast
  have hv0 : 0 ≤ v := (hrange v hvm).1
  rcases hfind : l.find? (fun o => decide (midnight + o ≥ now)) with _ | o
  · have hall : ∀ o ∈ l, midnight + o < now := by
      intro o ho
      have h2 := List.find?_eq_none.mp hfind o ho
      simp only [decide_eq_true_eq] at h2
      omega
    have hnext : nextRefresh l midnight now = midnight + (TWENTY_FOUR_HOURS + l.headD 0) := by
      simp only [nextRefresh]
      rw [hfind]
      rfl
    obtain ⟨a, l', rfl⟩ : ∃ a l', l = a :: l' := by
      cases l with
      | nil => exact absurd rfl hne
      | cons a l' => exact ⟨a, l', rfl⟩
    have hav : a ≤ v := by
      rcases List.mem_cons.mp hvm with rfl | h
      · exact le_refl _
      · exact (List.sorted_cons.mp hs).1 v h
    have ha0 : 0 ≤ a := (hrange a (List.mem_cons_self a l')).1
    have hhead : (a :: l').headD 0 = a := rfl
    rw [h24] at hday
    refine ⟨?_, ?_, ?_⟩
    · rw [hprev]
      omega
    · rw [hnext, hhead, h24]
      omega
    · rw [hnext, hprev, hhead, h24]
      omega
  · have hop : now ≤ midnight + o := by
      have := List.find?_some hfind
      simpa using this
    have hom : o ∈ l := List.mem_of_find?_eq_some hfind
    have hnext : nextRefresh l midnight now = midnight + o := by
      simp only [nextRefresh]
      rw [hfind]
      rfl
    have ho24 : o < TWENTY_FOUR_HOURS := (hrange o hom).2
    rw [h24] at ho24
    refine ⟨?_, ?_, ?_⟩
    · rw [hprev]
      omega
    · rw [hnext]
      omega
    · rw [hnext, hprev, h24]
      omega

/-- Witness for C2's amended theorem: anchors one and five hours past
midnight, `now` two hours past midnight. -/
theorem claim2_witness :
    prevRefresh [3600000, 18000000] 0 7200000 ≤ 7200000 ∧
    (7200000 : Int) ≤ nextRefresh [3600000, 18000000] 0 7200000 ∧
    nextRefresh [3600000, 18000000] 0 7200000 - prevRefresh [3600000, 18000000] 0 7200000 ≤
      TWENTY_FOUR_HOURS :=
  claim2_amended [3600000, 18000000] 0 7200000 (by decide) (by decide) (by decide)
    (by decide) (by decide) ⟨3600000, by decide, by decide⟩

/-- C5: on a non-empty ascending anchor list the resolved next anchor is
`midnight + o` for the least offset `o` with `midnight + o ≥ now`; when every
anchor instant is strictly before `now` it is `midnight + 24h + firstOffset`;
an anchor whose instant equals `now` exactly is resolved as next (the result
is `now` itself), and the prev scan never selects it (whenever any anchor is
strictly in the past, `prev` is strictly below `now`). -/
theorem claim5_next_selection (l : List Int) (midnight now : Int) (hne : l ≠ [])
    (hs : l.Sorted (· ≤ ·)) :
    ((∃ o ∈ l, now ≤ midnight + o) →
      ∃ o ∈ l, now ≤ midnight + o ∧ (∀ q ∈ l, now ≤ midnight + q → o ≤ q) ∧
        nextRefresh l midnight now = midnight + o) ∧
    ((∀ o ∈ l, midnight + o < now) →
      nextRefresh l midnight now = midnight + (TWENTY_FOUR_HOURS + l.headD 0)) ∧
    (∀ o ∈ l, midnight + o = now → nextRefresh l midnight now = now) ∧
    ((∃ o ∈ l, midnight + o < now) → prevRefresh l midnight now < now) := by
  have part1 : (∃ o ∈ l, now ≤ midnight + o) →
      ∃ o ∈ l, now ≤ midnight + o ∧ (∀ q ∈ l, now ≤ midnight + q → o ≤ q) ∧
        nextRefresh l midnight now = midnight + o := by
    rintro ⟨o, ho, hno⟩
    have hsome : (l.find? fun v => decide (midnight + v ≥ now)).isSome := by
      rw [List.find?_isSome]
      exact ⟨o, ho, by simp only [decide_eq_true_eq]; exact hno⟩
    obtain ⟨a, hfind⟩ := Option.isSome_iff_exists.mp hsome
    have hap : now ≤ midnight + a := by
      have := List.find?_some hfind
      simpa using this
    have ham : a ∈ l := List.mem_of_find?_eq_some hfind
    refine ⟨a, ham, hap, ?_, ?_⟩
    · intro q hq hnq
      exact find?_sorted_le hs hfind q hq (by simp only [decide_eq_true_eq]; exact hnq)
    · simp only [nextRefresh]
      rw [hfind]
      rfl
  have part2 : (∀ o ∈ l, midnight + o < now) →
      nextRefresh l midnight now = midnight + (TWENTY_FOUR_HOURS + l.headD 0) := by
    intro hall
    have hnone : l.find? (fun v => decide (midnight + v ≥ now)) = none := by
      rw [List.find?_eq_none]
      intro x hx
      simp only [decide_eq_true_eq]
      have := hall x hx
      omega
    simp only [nextRefresh]
    rw [hnone]
    rfl
  have part3 : ∀ o ∈ l, midnight + o = now → nextRefresh l midnight now = now := by
    intro o ho heq
    obtain ⟨a, ham, hap, hmin, hval⟩ := part1 ⟨o, ho, le_of_eq heq.symm⟩
    have h1 : a ≤ o := hmin o ho (le_of_eq heq.symm)
    have h2 : o ≤ a := by omega
    have : a = o := le_antisymm h1 h2
    rw [hval, this, heq]
  have part4 : (∃ o ∈ l, midnight + o < now) → prevRefresh l midnight now < now := by
    intro hpast
    obtain ⟨v, _, hvlt, hprev⟩ := prev_selected l midnight now hpast
    rw [hprev]
    exact hvlt
  exact ⟨part1, part2, part3, part4⟩

/-- Witness for C5's theorem at the exact-tie input: a single anchor five
hours past midnight with `now` exactly there resolves next to `now`. -/
theorem claim5_witness : nextRefresh [18000000] 0 18000000 = 18000000 :=
  (claim5_next_selection [18000000] 0 18000000 (by decide) (by decide)).2.2.1
    18000000 (by decide) (by decide)

/-- C6: the re-armer's delay to the first fire is
`intervalMs - ((now - phaseReference) % intervalMs)` (the source's remainder,
`Int.tmod`), and consequently every fire instant — the first fire and each
subsequent `setInterval` fire `n` periods later — lies on the grid
`phaseReference + k * intervalMs` for some integer `k`, regardless of how
`now` relates to the phase reference. -/
theorem claim6_interval_phase (now fromTime ms : Int) (hms : 0 < ms) :
    firstFireDelay now fromTime ms = ms - (now - fromTime).tmod ms ∧
    ∀ n : Nat, ∃ k : Int, fireInstant now fromTime ms n = fromTime + k * ms := by
  refine ⟨rfl, fun n => ⟨(now - fromTime).tdiv ms + 1 + (n : Int), ?_⟩⟩
  have h := Int.tdiv_add_tmod (now - fromTime) ms
  show now + (ms - (now - fromTime).tmod ms) + (n : Int) * ms =
    fromTime + ((now - fromTime).tdiv ms + 1 + (n : Int)) * ms
  linear_combination -h

/-- Witness for C6's theorem: arming at instant 107 with phase reference 3
and a 10ms interval. -/
theorem claim6_witness :
    firstFireDelay 107 3 10 = 10 - ((107 : Int) - 3).tmod 10 ∧
    ∀ n : Nat, ∃ k : Int, fireInstant 107 3 10 n = 3 + k * 10 :=
  claim6_interval_phase 107 3 10 (by decide)

theorem mapParse_append_error (s : String) (post : List RefreshValue)
    (hone : parseOne (.str s) = .error (invalidFormatMsg s)) :
    ∀ pre : List RefreshValue, (∀ v ∈ pre, (parseOne v).isOk = true) →
      mapParse (pre ++ .str s :: post) = .error (invalidFormatMsg s) := by
  intro pre
  induction pre with
  | nil =>
    intro _
    simp [mapParse, hone]
  | cons v vs ih =>
    intro hp
    have hv := hp v (List.mem_cons_self v vs)
    obtain ⟨x, hx⟩ : ∃ x, parseOne v = .ok x := by
      cases hvv : parseOne v with
      | ok x => exact ⟨x, rfl⟩
      | error e => rw [hvv] at hv; simp [Except.isOk, Except.toBool] at hv
    have htail := ih fun w hw => hp w (List.mem_cons_of_mem v hw)
    simp [mapParse, hx, htail]

/-- C7: every textual anchor rejected by the time grammar fails with the
`InvalidFormat` error whose message contains the original raw string
verbatim — whether passed as the sole value, as a singleton array, or
embedded after any values that parse successfully (the array case fails with
the first offending element's error, so anything after the bad element is
irrelevant). -/
theorem claim7_invalid_format (s : String) (hbad : matchTime (trimChars s.data) = none)
    (pre post : List RefreshValue) (hpre : ∀ v ∈ pre, (parseOne v).isOk = true) :
    getRefreshValues (.single (.str s)) = .error (invalidFormatMsg s) ∧
    getRefreshValues (.array [.str s]) = .error (invalidFormatMsg s) ∧
    getRefreshValues (.array (pre ++ .str s :: post)) = .error (invalidFormatMsg s) ∧
    ∃ a b, invalidFormatMsg s = a ++ s ++ b := by
  have hone : parseOne (.str s) = .error (invalidFormatMsg s) := by
    simp [parseOne, parseString, hbad]
  refine ⟨?_, ?_, ?_, ?_⟩
  · simp [getRefreshValues, flatten, mapParse, hone, Except.map]
  · simp [getRefreshValues, flatten, mapParse, hone, Except.map]
  · rw [getRefreshValues]
    rw [show flatten (.array (pre ++ .str s :: post)) = pre ++ .str s :: post from rfl]
    rw [mapParse_append_error s post hone pre hpre]
    rfl
  · exact ⟨"Invalid refreshAt value format.  Expected \x60h[:mm[:ss[.ms]]]\x60.  Received: \x27",
      "\x27", rfl⟩

/-- Witness for C7's theorem: the malformed anchor `8:60` passed alone, as a
singleton array, and between the valid values `1` and `3` (the array case
from the repository's own tests). -/
theorem claim7_witness :
    getRefreshValues (.single (.str "8:60")) = .error (invalidFormatMsg "8:60") ∧
    getRefreshValues (.array [.str "8:60"]) = .error (invalidFormatMsg "8:60") ∧
    getRefreshValues (.array ([.num 1] ++ .str "8:60" :: [.num 3])) =
      .error (invalidFormatMsg "8:60") ∧
    ∃ a b, invalidFormatMsg "8:60" = a ++ "8:60" ++ b :=
  claim7_invalid_format "8:60" (by rfl) [.num 1] [.num 3]
    (by intro v hv; simp only [List.mem_singleton] at hv; subst hv; rfl)

theorem mapParse_ok_map {l : List RefreshValue} {xs : List Int}
    (h : mapParse l = .ok xs) : xs = l.map parsedVal := by
  induction l generalizing xs with
  | nil => simp [mapParse] at h; simp [h.symm]
  | cons v vs ih =>
    rw [mapParse] at h
    cases hv : parseOne v with
    | error e => rw [hv] at h; exact absurd h (by simp)
    | ok x =>
      rw [hv] at h
      cases ht : mapParse vs with
      | error e => rw [ht] at h; exact absurd h (by simp)
      | ok ys =>
        rw [ht] at h
        obtain rfl : x :: ys = xs := by simpa using h
        simp [List.map_cons, parsedVal, hv, ih ht, Except.toOption]

theorem mapParse_ok_forall {l : List RefreshValue} {xs : List Int}
    (h : mapParse l = .ok xs) : ∀ v ∈ l, ∃ x, parseOne v = .ok x := by
  induction l generalizing xs with
  | nil => simp
  | cons v vs ih =>
    rw [mapParse] at h
    cases hv : parseOne v with
    | error e => rw [hv] at h; exact absurd h (by simp)
    | ok x =>
      rw [hv] at h
      cases ht : mapParse vs with
      | error e => rw [ht] at h; exact absurd h (by simp)
      | ok ys =>
        intro w hw
        rcases List.mem_cons.mp hw with rfl | hw2
        · exact ⟨x, hv⟩
        · exact ih ht w hw2

theorem mapParse_ok_of_forall {l : List RefreshValue}
    (h : ∀ v ∈ l, ∃ x, parseOne v = .ok x) : mapParse l = .ok (l.map parsedVal) := by
  induction l with
  | nil => rfl
  | cons v vs ih =>
    obtain ⟨x, hx⟩ := h v (List.mem_cons_self v vs)
    have htail := ih fun w hw => h w (List.mem_cons_of_mem v hw)
    rw [mapParse, hx, htail]
    simp [parsedVal, hx, Except.toOption]

/-- C9: normalization is permutation invariant — when an anchor array of
values that all parse successfully is reordered, `getRefreshValues` produces
the same ascending offset list, so input order never affects scheduling. -/
theorem claim9_perm_invariant (l1 l2 : List RefreshValue) (xs : List Int)
    (hperm : l1.Perm l2) (h1 : getRefreshValues (.array l1) = .ok xs) :
    getRefreshValues (.array l2) = .ok xs ∧ xs.Sorted (· ≤ ·) := by
  rw [getRefreshValues] at h1
  rw [show flatten (.array l1) = l1 from rfl] at h1
  obtain ⟨ys1, hys1, hxs⟩ : ∃ ys1, mapParse l1 = .ok ys1 ∧
      xs = List.insertionSort (· ≤ ·) ys1 := by
    cases hm : mapParse l1 with
    | error e => rw [hm] at h1; exact absurd h1 (by simp [Except.map])
    | ok ys => rw [hm] at h1; exact ⟨ys, rfl, by simpa [Except.map] using h1.symm⟩
  have hall2 : ∀ v ∈ l2, ∃ x, parseOne v = .ok x := fun v hv =>
    mapParse_ok_forall hys1 v (hperm.mem_iff.mpr hv)
  have h2 : mapParse l2 = .ok (l2.map parsedVal) := mapParse_ok_of_forall hall2
  have hys1map : ys1 = l1.map parsedVal := mapParse_ok_map hys1
  have hpermVals : (l1.map parsedVal).Perm (l2.map parsedVal) := hperm.map parsedVal
  have hsorted : ∀ l : List Int, (List.insertionSort (· ≤ ·) l).Sorted (· ≤ ·) :=
    fun l => List.sorted_insertionSort (· ≤ ·) l
  have heq : List.insertionSort (· ≤ ·) (l2.map parsedVal) =
      List.insertionSort (· ≤ ·) ys1 := by
    refine List.eq_of_perm_of_sorted ?_ (hsorted _) (hsorted _)
    have p1 : (List.insertionSort (· ≤ ·) (l2.map parsedVal)).Perm (l2.map parsedVal) :=
      List.perm_insertionSort _ _
    have p2 : (l1.map parsedVal).Perm (List.insertionSort (· ≤ ·) ys1) := by
      rw [← hys1map]
      exact (List.perm_insertionSort _ _).symm
    exact p1.trans (hpermVals.symm.trans p2)
  constructor
  · rw [getRefreshValues]
    rw [show flatten (.array l2) = l2 from rfl]
    rw [h2]
    simp [Except.map, heq, hxs]
  · rw [hxs]
    exact hsorted ys1

/-- Witness for C9's theorem: the unsorted millisecond anchors `[10, 5]`
from the repository's own tests behave exactly like `[5, 10]`. -/
theorem claim9_witness :
    getRefreshValues (.array [.num 5, .num 10]) = .ok [5, 10] ∧
    List.Sorted (· ≤ ·) ([5, 10] : List Int) :=
  claim9_perm_invariant [.num 10, .num 5] [.num 5, .num 10] [5, 10]
    (List.Perm.swap (RefreshValue.num 5) (RefreshValue.num 10) []) (by rfl)

/-- C10: with `returnCurrentTime` omitted, `useCurrentDate` returns the
midnight instant of the current day unless `interval` is set or `refreshAt`
is an array with more than one element, in which case it returns the current
instant; the code's default condition is exactly `interval` non-null or
`refreshAt` an array of length greater than one. -/
theorem claim10_return_default (int : Option Int) (refreshAt : Option RefreshAtArg)
    (now midnight : Int) :
    ((int = none ∧ isMultiValueArray refreshAt = false) →
      returnedInstant none int refreshAt now midnight = midnight) ∧
    ((int ≠ none ∨ isMultiValueArray refreshAt = true) →
      returnedInstant none int refreshAt now midnight = now) ∧
    (isMultiValueArray refreshAt = true ↔
      ∃ vs, refreshAt = some (.array vs) ∧ 1 < vs.length) := by
  refine ⟨?_, ?_, ?_⟩
  · rintro ⟨h1, h2⟩
    simp [returnedInstant, defaultReturnCurrentTime, h1, h2]
  · rintro (h | h)
    · have hsome : int.isSome = true := by
        cases int with
        | none => exact absurd rfl h
        | some x => rfl
      simp [returnedInstant, defaultReturnCurrentTime, hsome]
    · simp [returnedInstant, defaultReturnCurrentTime, h]
  · cases refreshAt with
    | none => simp [isMultiValueArray]
    | some arg =>
      cases arg with
      | single v => simp [isMultiValueArray]
      | array vs => simp [isMultiValueArray]

/-- Witness for C10's theorem: with no `interval` and no `refreshAt` the
midnight instant is returned; with an `interval` the current instant is. -/
theorem claim10_witness :
    returnedInstant none none none 5 3 = 3 ∧
    returnedInstant none (some 60000) none 5 3 = 5 :=
  ⟨(claim10_return_default none none 5 3).1 ⟨rfl, rfl⟩,
   (claim10_return_default (some 60000) none 5 3).2.1 (Or.inl (by simp))⟩

end UseCurrentDate
